import Mathlib

/-!
Verification of the hessfree package (Go): a shallow embedding of the
delta arithmetic (`param_delta.go`), the damped objective and damping
controller (`learner.go`), the conjugate-gradient solver (`trainer.go`),
the concurrent objective fan-out (`concurrent_objective.go`) and the
vector pool (`caches.go`), together with proofs about the claims of the
specification.

Machine floating-point values are modelled by exact rationals, except
where a division can hit a zero denominator: there the IEEE outcomes
(positive infinity, negative infinity, NaN) are modelled explicitly by
the `EFloat` type below, because the comparison behaviour of those
values is what decides the control flow in the source.
-/

namespace Hessfree

/-- Delta is the flattened contents of a `ConstParamDelta`
(`param_delta.go`): the concatenation of the per-variable delta vectors,
in a fixed variable order. -/
abbrev Delta := List ℚ

/-- dotD embeds `ConstParamDelta.dot`: the sum over all entries of the
products of corresponding components. -/
def dotD (a b : Delta) : ℚ :=
  (List.zipWith (· * ·) a b).sum

/-- magSquared embeds `ConstParamDelta.magSquared`, which the source
defines as `c.dot(c)`. -/
def magSquared (a : Delta) : ℚ :=
  dotD a a

/-- scaleD embeds `ConstParamDelta.scale`: every entry is multiplied by
the scaler. -/
def scaleD (s : ℚ) (a : Delta) : Delta :=
  a.map (fun x => s * x)

/-- addDelta embeds `ConstParamDelta.addDelta`: pointwise
`x.Add(c1[v].Copy().Scale(scaler))`, i.e. `a + scaler * b` entrywise.
The source requires both deltas to share the same variables and vector
lengths. -/
def addDelta (a b : Delta) (scaler : ℚ) : Delta :=
  List.zipWith (fun x y => x + scaler * y) a b

/-- EFloat models the outcome of a float64 division whose operands are
finite: either a finite value (modelled exactly), or one of the IEEE
special values produced by a zero denominator. -/
inductive EFloat where
  | finite (x : ℚ)
  | posInf
  | negInf
  | nan
  deriving DecidableEq, Repr

/-- fdiv is IEEE-754 division of two finite values: finite quotient for
a nonzero denominator, and for a zero denominator the sign of the
numerator selects between the infinities and NaN. -/
def fdiv (a b : ℚ) : EFloat :=
  if b ≠ 0 then .finite (a / b)
  else if 0 < a then .posInf
  else if a < 0 then .negInf
  else .nan

/-- flt models the float64 comparison `e < c` where `e` may be one of
the special values: NaN compares false against everything. -/
def flt : EFloat → ℚ → Bool
  | .finite x, c => decide (x < c)
  | .posInf, _ => false
  | .negInf, _ => true
  | .nan, _ => false

/-- fgt models the float64 comparison `e > c` where `e` may be one of
the special values: NaN compares false against everything. -/
def fgt : EFloat → ℚ → Bool
  | .finite x, c => decide (c < x)
  | .posInf, _ => true
  | .negInf, _ => false
  | .nan, _ => false

/-- isFinite is true exactly on the finite values of `EFloat`. -/
def EFloat.isFinite : EFloat → Bool
  | .finite _ => true
  | _ => false

/-- Batch stands for an `sgd.SampleSet`: an ordered list of opaque
samples. Only its length and contiguous sub-ranges matter to the code
under verification. -/
abbrev Batch := List ℕ

/-- Objective embeds the `Objective` interface as used by
`DampingLearner` and `dampedObjective` (`learner.go`, later revision):
the quadratic model value, the quadratic model gradient (returned as a
delta over the same flattened variable layout), and the true objective.
A delta of `[]` plays the role of the empty `ConstParamDelta{}`. -/
structure Objective where
  quad : Delta → Batch → ℚ
  quadGrad : Delta → Batch → Delta
  objective : Delta → Batch → ℚ

/-- dampedQuad embeds `dampedObjective.Quad` (`learner.go`, revision
with the damping coefficient applied): the wrapped quadratic value plus
`scaler * x * x` for every entry of the delta, where
`scaler = float64(s.Len()) * d.Coeff`. -/
def dampedQuad (w : Objective) (coeff : ℚ) (delta : Delta) (s : Batch) : ℚ :=
  let scaler := (s.length : ℚ) * coeff
  delta.foldl (fun res x => res + scaler * x * x) (w.quad delta s)

/-- dampedQuadGrad embeds `dampedObjective.QuadGrad` (`learner.go`,
revision with the damping coefficient applied): the wrapped gradient
with `scaler * x` added at each delta entry, where
`scaler = float64(2*s.Len()) * d.Coeff`. -/
def dampedQuadGrad (w : Objective) (coeff : ℚ) (delta : Delta) (s : Batch) : Delta :=
  let scaler := ((2 * s.length : ℕ) : ℚ) * coeff
  List.zipWith (fun r x => r + scaler * x) (w.quadGrad delta s) delta

/-- dampingTrust embeds the trust-quotient computation of
`DampingLearner.Adjust` (`learner.go`): the division
`(realOffset - centerVal) / (quadOffset - centerVal)` carried out in
float64 arithmetic, with the delta chosen by the `UseQuadMin` flag. -/
def dampingTrust (obj : Objective) (useQuadMin : Bool) (delta quadMin : Delta)
    (s : Batch) : EFloat :=
  let centerVal := obj.objective [] s
  if useQuadMin then
    fdiv (obj.objective quadMin s - centerVal) (obj.quad quadMin s - centerVal)
  else
    fdiv (obj.objective delta s - centerVal) (obj.quad delta s - centerVal)

/-- applyTrust embeds the coefficient update at the end of
`DampingLearner.Adjust`: raise by 3/2 when the trust quotient compares
below 0.25, lower by 2/3 when it compares above 0.75, otherwise leave
the coefficient alone. -/
def applyTrust (coeff : ℚ) (trust : EFloat) : ℚ :=
  if flt trust (1/4) then coeff * (3/2)
  else if fgt trust (3/4) then coeff * (2/3)
  else coeff

/-- dampingAdjust embeds the effect of `DampingLearner.Adjust` on the
damping coefficient: compute the trust quotient, then apply the
threshold update. -/
def dampingAdjust (obj : Objective) (useQuadMin : Bool) (delta quadMin : Delta)
    (s : Batch) (coeff : ℚ) : ℚ :=
  applyTrust coeff (dampingTrust obj useQuadMin delta quadMin s)

/-- exObjective is a small concrete objective used to instantiate the
theorems about the damping code on explicit inputs. -/
def exObjective : Objective where
  quad := fun d s => (s.length : ℚ) + d.sum
  quadGrad := fun d _ => scaleD 2 d
  objective := fun d s => (s.length : ℚ) * d.sum

/-- zeroObjective is the everywhere-zero objective; the trust quotient
it produces is the NaN case 0/0. -/
def zeroObjective : Objective where
  quad := fun _ _ => 0
  quadGrad := fun _ _ => []
  objective := fun _ _ => 0

/-- stepObjective is a concrete objective whose quadratic model is
constant while its true objective rises away from zero, so the trust
quotient of the damping update divides a positive number by zero and
yields positive infinity. -/
def stepObjective : Objective where
  quad := fun _ _ => 0
  quadGrad := fun _ _ => []
  objective := fun d _ => if d.isEmpty then 0 else 1

/-- CGObjective embeds the objective as seen by `cgSolver`
(`trainer.go`): the solver holds a fixed sample set, so the batch
argument of each method is folded into the function. `quadGrad` and
`quadHessian` stand for the vector each additive method adds to a
freshly allocated (all-zero) delta. -/
structure CGObjective where
  quad : Delta → ℚ
  quadGrad : Delta → Delta
  quadHessian : Delta → Delta
  objective : Delta → ℚ

/-- ConvergenceCriteria embeds the structure of the same name in
`trainer.go`; a zero field means the Martens (2010) default. -/
structure ConvergenceCriteria where
  minK : ℚ
  kScale : ℚ
  epsilon : ℚ

/-- CGState embeds the mutable fields of `cgSolver` (`trainer.go`).
`solution` and `residual` are `Option`s because the source
distinguishes nil slices in `initializeIfNeeded`. -/
structure CGState where
  solution : Option Delta
  residual : Option Delta
  projectedResidual : Delta
  residualMag2 : ℚ
  justBacktracked : Bool
  backtrackCount : ℕ
  backtrackDeltas : List Delta
  backtrackValues : List ℚ
  startObjective : ℚ
  quadValues : List ℚ
  deriving DecidableEq

/-- intTrunc models Go's float64-to-int conversion, which truncates
toward zero. -/
def intTrunc (x : ℚ) : ℤ :=
  if 0 ≤ x then ⌊x⌋ else ⌈x⌉

/-- convergenceK is the `k` of `cgSolver.converging`:
`int(math.Max(minK, kScale*float64(len(quadValues))))` with the zero
fields replaced by the defaults `minK = 10` and `kScale = 0.1`. -/
def convergenceK (cc : ConvergenceCriteria) (n : ℕ) : ℤ :=
  let kScale := if cc.kScale = 0 then 1/10 else cc.kScale
  let minK := if cc.minK = 0 then 10 else cc.minK
  intTrunc (max minK (kScale * (n : ℚ)))

/-- convergenceEps is the epsilon of `cgSolver.converging` with the
default `5e-4` substituted for a zero field. -/
def convergenceEps (cc : ConvergenceCriteria) : ℚ :=
  if cc.epsilon = 0 then 1/2000 else cc.epsilon

/-- converging embeds `cgSolver.converging` (`trainer.go`): no
convergence before two recorded quadratic values or while the latest
quadratic value still exceeds the start objective; otherwise compare
the relative improvement over the last `k` iterations against
`k * epsilon`, with the final float division modelled by `fdiv` so a
zero current improvement produces the IEEE special values. -/
def converging (cc : ConvergenceCriteria) (startObjective : ℚ) (quadValues : List ℚ) : Bool :=
  if quadValues.length < 2 ∨ startObjective < quadValues.getLastD 0 then false
  else
    let k := convergenceK cc quadValues.length
    if (quadValues.length : ℤ) ≤ k then false
    else
      let currentImprovement := quadValues.getLastD 0 - startObjective
      let oldImprovement := quadValues.getD (quadValues.length - 1 - k.toNat) 0 - startObjective
      flt (fdiv (currentImprovement - oldImprovement) currentImprovement)
        ((k : ℚ) * convergenceEps cc)

/-- btCountLoop embeds the loop of `cgSolver.updateBacktracking` that
advances `backtrackCount` while `int(pow(btRate, count)) <= doneIters`.
The source loop stops because `btRate > 1`; here a fuel argument large
enough for every reachable call bounds the recursion. -/
def btCountLoop (btRate : ℚ) (doneIters : ℕ) : ℕ → ℕ → ℕ
  | 0, count => count
  | fuel + 1, count =>
    if intTrunc (btRate ^ count) ≤ (doneIters : ℤ) then
      btCountLoop btRate doneIters fuel (count + 1)
    else count

/-- updateBacktracking embeds `cgSolver.updateBacktracking`
(`trainer.go`): when `btRate^backtrackCount` has crossed the number of
completed iterations, snapshot the current solution and its true objective
value and advance the count past the threshold. A zero backtrack rate
means the default 1.3. -/
def updateBacktracking (obj : CGObjective) (btRate : ℚ) (c : CGState) : CGState :=
  let doneIters := c.quadValues.length
  let rate := if btRate = 0 then 13/10 else btRate
  if (doneIters : ℤ) < intTrunc (rate ^ c.backtrackCount) then c
  else
    let newCount := btCountLoop rate doneIters (4 * doneIters + 8) c.backtrackCount
    let btValue := obj.objective (c.solution.getD [])
    { c with
      backtrackCount := newCount
      backtrackDeltas := c.backtrackDeltas ++ [c.solution.getD []]
      backtrackValues := c.backtrackValues ++ [btValue]
      justBacktracked := true }

/-- initIfNeeded embeds `cgSolver.initializeIfNeeded` (`trainer.go`):
allocate a zero solution if none was warm-started, and on the first
call compute the residual as the negated quadratic gradient, copy it
into the search direction, record its squared magnitude and store the
true objective at the zero delta as the convergence baseline. -/
def initIfNeeded (obj : CGObjective) (nParams : ℕ) (c : CGState) : CGState :=
  let c1 := if c.solution = none then
      { c with solution := some (List.replicate nParams (0 : ℚ)) }
    else c
  if c1.residual = none then
    let r := scaleD (-1) (obj.quadGrad (c1.solution.getD []))
    { c1 with
      residual := some r
      projectedResidual := r
      residualMag2 := magSquared r
      startObjective := obj.objective [] }
  else c1

/-- cgStep embeds `cgSolver.Step` (`trainer.go`): after initialization,
compute the Hessian product of the search direction; terminate without
touching the state when the projected curvature or the squared residual
magnitude is exactly zero; otherwise take the CG step, record the
quadratic value, stop if converging, and otherwise update the residual,
the search direction and the backtracking checkpoints. The returned
Bool is Step's `shouldContinue`. -/
def cgStep (obj : CGObjective) (cc : ConvergenceCriteria) (btRate : ℚ) (nParams : ℕ)
    (c0 : CGState) : CGState × Bool :=
  let c := initIfNeeded obj nParams c0
  let projHessian := obj.quadHessian c.projectedResidual
  let projHessianMag := dotD c.projectedResidual projHessian
  if projHessianMag = 0 ∨ c.residualMag2 = 0 then (c, false)
  else
    let stepSize := c.residualMag2 / projHessianMag
    let sol := addDelta (c.solution.getD []) c.projectedResidual stepSize
    let quadOutput := obj.quad sol
    let c1 := { c with
      justBacktracked := false
      solution := some sol
      quadValues := c.quadValues ++ [quadOutput] }
    if converging cc c1.startObjective c1.quadValues then (c1, false)
    else
      let oldRMag2 := c1.residualMag2
      let r := addDelta (c1.residual.getD []) projHessian (-stepSize)
      let rm2 := magSquared r
      let beta := rm2 / oldRMag2
      let pr := addDelta (scaleD beta c1.projectedResidual) r 1
      let c2 := { c1 with
        residual := some r
        residualMag2 := rm2
        projectedResidual := pr }
      (updateBacktracking obj btRate c2, true)

/-- bestStep is the body of the loop in `cgSolver.Best` that scans the
backtracked values for the lowest one; an accumulator whose delta is
still `none` plays the role of the `i == 0` first-iteration test. -/
def bestStep (acc : ℚ × Option Delta) (p : ℚ × Delta) : ℚ × Option Delta :=
  if p.1 < acc.1 ∨ acc.2 = none then (p.1, some p.2) else acc

/-- cgBest embeds `cgSolver.Best` (`trainer.go`): scan the backtracked
snapshots for the lowest recorded true objective value, then, unless
the last step just backtracked, return the current solution when its
true objective value is strictly lower than the best snapshot value (or
when there is no snapshot), and the best snapshot otherwise.
`objectiveOf` stands for `c.Objective.Objective(·, c.Samples)`. -/
def cgBest (objectiveOf : Delta → ℚ) (c : CGState) : Option Delta :=
  let best := (c.backtrackValues.zip c.backtrackDeltas).foldl bestStep (0, none)
  if c.justBacktracked = false then
    if objectiveOf (c.solution.getD []) < best.1 ∨ best.2 = none then c.solution
    else best.2
  else best.2

/-- cc0 is the all-defaults convergence configuration (every field
zero, so Martens's defaults apply). -/
def cc0 : ConvergenceCriteria := ⟨0, 0, 0⟩

/-- negCurvObjective is a one-parameter quadratic model whose curvature
matrix is −1, so the curvature along any nonzero search direction is
negative. -/
def negCurvObjective : CGObjective where
  quad := fun _ => 0
  quadGrad := fun _ => []
  quadHessian := fun d => scaleD (-1) d
  objective := fun _ => 0

/-- negCurvState is an initialized solver state with solution `[0]`,
search direction `[1]` and squared residual magnitude 1. -/
def negCurvState : CGState where
  solution := some [0]
  residual := some [1]
  projectedResidual := [1]
  residualMag2 := 1
  justBacktracked := false
  backtrackCount := 0
  backtrackDeltas := []
  backtrackValues := []
  startObjective := 0
  quadValues := []

/-- zeroResState is an initialized solver state whose squared residual
magnitude is zero, one of the degenerate termination cases. -/
def zeroResState : CGState where
  solution := some [2]
  residual := some [3]
  projectedResidual := [1]
  residualMag2 := 0
  justBacktracked := false
  backtrackCount := 0
  backtrackDeltas := []
  backtrackValues := []
  startObjective := 0
  quadValues := []

/-- qv12 is a concrete run of twelve recorded quadratic values that
satisfies every convergence condition with the default criteria. -/
def qv12 : List ℚ := [0, -1, -1, -1, -1, -1, -1, -1, -1, -1, -1, -1]

/-- qv11 is a concrete run of eleven recorded quadratic values whose
latest value exactly equals the start objective 0 while an older value
lies above it. -/
def qv11 : List ℚ := [1, 0, 0, 0, 0, 0, 0, 0, 0, 0, 0]

/-- tieState is a solver state with one backtracked snapshot `[2]` of
recorded value 5 and current solution `[3]`, not immediately after a
backtrack. -/
def tieState : CGState where
  solution := some [3]
  residual := none
  projectedResidual := []
  residualMag2 := 0
  justBacktracked := false
  backtrackCount := 0
  backtrackDeltas := [[2]]
  backtrackValues := [5]
  startObjective := 0
  quadValues := []

/-- constFive is the true objective that assigns value 5 to every
delta, so the current solution and the snapshot of `tieState` tie. -/
def constFive : Delta → ℚ := fun _ => 5

/-- effSubSize is the effective sub-batch size of
`ConcurrentObjective.subBatchChan` (`concurrent_objective.go`): the
configured `MaxSubBatch`, or the default 15 when it is unset (zero). -/
def effSubSize (maxSubBatch : ℕ) : ℕ :=
  if maxSubBatch = 0 then 15 else maxSubBatch

/-- subBatchChunks cuts a list into consecutive chunks of `k + 1`
elements (the last chunk may be shorter), mirroring the loop
`for i := 0; i < s.Len(); i += subSize` that emits
`s.Subset(i, i+min(subSize, len-i))`. The chunk size is written as
`k + 1` so the recursion structurally decreases. -/
def subBatchChunks {α : Type} (k : ℕ) : List α → List (List α)
  | [] => []
  | x :: xs => (x :: xs.take k) :: subBatchChunks k (xs.drop k)
  termination_by l => l.length
  decreasing_by
    simp only [List.length_drop, List.length_cons]
    omega

/-- subBatchChan embeds `ConcurrentObjective.subBatchChan`: the ordered
list of sub-batches the channel delivers. -/
def subBatchChan {α : Type} (maxSubBatch : ℕ) (s : List α) : List (List α) :=
  subBatchChunks (effSubSize maxSubBatch - 1) s

/-- sumValues embeds `ConcurrentObjective.sumValues`: every sub-batch
delivered by the channel is evaluated and the results are summed.
Worker scheduling only permutes the floating-point summation order; over
exact rationals the sum is the deterministic reduction below. -/
def sumValues {α : Type} (r : List α → ℚ) (maxSubBatch : ℕ) (s : List α) : ℚ :=
  ((subBatchChan maxSubBatch s).map r).sum

/-- concurrentQuad embeds `ConcurrentObjective.Quad`: the wrapped
`Quad` is applied to every sub-batch at the same delta and the values
are summed. -/
def concurrentQuad {α : Type} (wrappedQuad : Delta → List α → ℚ) (maxSubBatch : ℕ)
    (delta : Delta) (s : List α) : ℚ :=
  sumValues (fun subSet => wrappedQuad delta subSet) maxSubBatch s

/-- concurrentQuadGrad embeds `ConcurrentObjective.sumDeltas` as used
by `QuadGrad`: every worker accumulates its claimed sub-batches'
additive contributions into a freshly allocated zero delta of the
parameter layout, and the caller adds each worker delta into `sumOut`.
Idle workers contribute exact zero deltas and shard assignment only
permutes an exact rational sum, so the net effect is adding the
sub-batch contributions (here `g` per sub-batch) on top of a zero
delta, then adding that total into `sumOut` once. -/
def concurrentQuadGrad {α : Type} (g : List α → Delta) (maxSubBatch nParams : ℕ)
    (s : List α) (sumOut : Delta) : Delta :=
  addDelta sumOut
    ((subBatchChan maxSubBatch s).foldl (fun acc subSet => addDelta acc (g subSet) 1)
      (List.replicate nParams 0)) 1

/-- Params models the live `autofunc.Variable` vectors: variable
identities are indices, each owning a rational vector. -/
abbrev Params := ℕ → List ℚ

/-- patchParams embeds the patch loop of
`ConcurrentObjective.Objective`: for every delta entry the live vector
is replaced by `variable.Vector.Copy().Add(newVec)`, the entrywise
sum. -/
def patchParams (params : Params) (delta : List (ℕ × List ℚ)) : Params :=
  delta.foldl (fun ps p => Function.update ps p.1 (List.zipWith (· + ·) (ps p.1) p.2)) params

/-- restoreParams embeds the restore loop of
`ConcurrentObjective.Objective`: every backed-up vector is written
back. -/
def restoreParams (ps : Params) (backups : List (ℕ × List ℚ)) : Params :=
  backups.foldl (fun a p => Function.update a p.1 p.2) ps

/-- concurrentObjectiveAt embeds `ConcurrentObjective.Objective`
(`concurrent_objective.go`): back up the vectors named by the delta,
patch them by adding the delta entries, evaluate the wrapped at-zero
objective over all sub-batches (summed), then restore the backups. The
returned pair is the objective value and the final parameter state. -/
def concurrentObjectiveAt {α : Type} (atZero : Params → List α → ℚ) (maxSubBatch : ℕ)
    (params : Params) (delta : List (ℕ × List ℚ)) (s : List α) : ℚ × Params :=
  let backups := delta.map (fun p => (p.1, params p.1))
  let patched := patchParams params delta
  let res := sumValues (fun subSet => atZero patched subSet) maxSubBatch s
  (res, restoreParams patched backups)

/-- exParams gives variable `v` the vector `[v]`. -/
def exParams : Params := fun v => [(v : ℚ)]

/-- exAtZero is a concrete at-zero objective reading parameter 0. -/
def exAtZero : Params → List ℕ → ℚ := fun ps _ => (ps 0).sum

/-- VecCacheState models the `vecCache.vecs` map (`caches.go`): for
each vector length, the stack of released vectors (an absent key is the
empty stack). -/
abbrev VecCacheState := ℕ → List (List ℚ)

/-- vecAlloc embeds `vecCache.Alloc`: when the stack for the requested
size is nonempty, pop its last vector, overwrite every entry with zero
and return it; otherwise return a fresh zero vector of the requested
size. -/
def vecAlloc (c : VecCacheState) (size : ℕ) : List ℚ × VecCacheState :=
  match h : c size with
  | [] => (List.replicate size 0, c)
  | x :: xs =>
      (((x :: xs).getLastD []).map (fun _ => (0 : ℚ)),
        Function.update c size (x :: xs).dropLast)

/-- vecRelease embeds `vecCache.Release`: the vector is appended to the
stack keyed by its own length. -/
def vecRelease (c : VecCacheState) (vec : List ℚ) : VecCacheState :=
  Function.update c vec.length (c vec.length ++ [vec])

/-- PoolOp is one operation against the vector pool. -/
inductive PoolOp where
  | alloc (size : ℕ)
  | release (vec : List ℚ)

/-- runPool replays a sequence of pool operations against the initially
empty cache, keeping only the cache state. -/
def runPool (ops : List PoolOp) : VecCacheState :=
  ops.foldl
    (fun c op =>
      match op with
      | .alloc n => (vecAlloc c n).2
      | .release v => vecRelease c v)
    (fun _ => [])

/-- cacheWF: every vector stored under a size key has that length. -/
def cacheWF (c : VecCacheState) : Prop :=
  ∀ s : ℕ, ∀ v ∈ c s, v.length = s

/-- foldl_add_scaled_sq is the arithmetic content of the accumulation
loop in `dampedObjective.Quad`. -/
theorem foldl_add_scaled_sq (k : ℚ) :
    ∀ (l : List ℚ) (init : ℚ),
      l.foldl (fun res x => res + k * x * x) init
        = init + k * (l.map (fun x => x * x)).sum := by
  intro l
  induction l with
  | nil => intro init; simp
  | cons x xs ih =>
    intro init
    simp only [List.foldl_cons, List.map_cons, List.sum_cons, ih]
    ring

/-- C1: the damped objective built by `DampingLearner.MakeObjective`
adds `coeff * s.Len() * ‖delta‖²` to the wrapped `Quad` value, and its
`QuadGrad` adds exactly `2 * coeff * s.Len() * delta` to the wrapped
gradient (`dampedObjective` in `learner.go`, the revision that applies
`d.Coeff`). -/
theorem damped_objective_adds_penalty (w : Objective) (c : ℚ) (d : Delta) (s : Batch)
    (h : (w.quadGrad d s).length = d.length) :
    dampedQuad w c d s
        = w.quad d s + c * (s.length : ℚ) * (d.map (fun x => x * x)).sum ∧
    dampedQuadGrad w c d s = addDelta (w.quadGrad d s) d (2 * c * (s.length : ℚ)) := by
  constructor
  · show d.foldl (fun res x => res + ((s.length : ℚ) * c) * x * x) (w.quad d s) = _
    rw [foldl_add_scaled_sq]
    ring
  · show List.zipWith (fun r x => r + (((2 * s.length : ℕ) : ℚ) * c) * x)
        (w.quadGrad d s) d = List.zipWith (fun x y => x + (2 * c * (s.length : ℚ)) * y)
        (w.quadGrad d s) d
    have hsc : (((2 * s.length : ℕ) : ℚ) * c) = 2 * c * (s.length : ℚ) := by
      push_cast
      ring
    rw [hsc]

/-- witness for `damped_objective_adds_penalty` at a concrete wrapped
objective, coefficient 2, delta `[1, 2]` and a batch of three
samples. -/
theorem damped_objective_adds_penalty_witness :
    ((exObjective.quadGrad [1, 2] [0, 0, 0]).length = ([1, 2] : Delta).length) ∧
    (dampedQuad exObjective 2 [1, 2] [0, 0, 0]
        = exObjective.quad [1, 2] [0, 0, 0]
          + 2 * (([0, 0, 0] : Batch).length : ℚ)
            * (([1, 2] : Delta).map (fun x => x * x)).sum ∧
     dampedQuadGrad exObjective 2 [1, 2] [0, 0, 0]
        = addDelta (exObjective.quadGrad [1, 2] [0, 0, 0]) [1, 2]
            (2 * 2 * (([0, 0, 0] : Batch).length : ℚ))) :=
  ⟨by simp [exObjective, scaleD],
   damped_objective_adds_penalty exObjective 2 [1, 2] [0, 0, 0]
     (by simp [exObjective, scaleD])⟩

/-- applyTrust_fdiv_of_ne reduces the float trust update to an exact
rational case split whenever the denominator of the quotient is
nonzero. -/
theorem applyTrust_fdiv_of_ne (num den coeff : ℚ) (h : den ≠ 0) :
    applyTrust coeff (fdiv num den)
      = (if num / den < 1/4 then coeff * (3/2)
         else if 3/4 < num / den then coeff * (2/3)
         else coeff) := by
  unfold applyTrust
  rw [fdiv, if_pos h]
  simp only [flt, fgt, decide_eq_true_eq]

/-- C2: after `DampingLearner.Adjust`, the damping coefficient equals
its prior value times 3/2 when the reduction ratio is below 1/4, times
2/3 when it is above 3/4, and is unchanged otherwise, where the ratio
divides the true-objective improvement by the quadratic-model
improvement of the current cycle's objective, at the delta selected by
`UseQuadMin`. Stated for every run in which the denominator of the
ratio is nonzero, so the float division is an ordinary division. -/
theorem damping_adjust_ratio_thresholds (obj : Objective) (useQuadMin : Bool)
    (delta quadMin : Delta) (s : Batch) (coeff : ℚ)
    (h : obj.quad (if useQuadMin then quadMin else delta) s - obj.objective [] s ≠ 0) :
    dampingAdjust obj useQuadMin delta quadMin s coeff
      = (if (obj.objective (if useQuadMin then quadMin else delta) s - obj.objective [] s) /
            (obj.quad (if useQuadMin then quadMin else delta) s - obj.objective [] s) < 1/4
         then coeff * (3/2)
         else if 3/4 <
            (obj.objective (if useQuadMin then quadMin else delta) s - obj.objective [] s) /
            (obj.quad (if useQuadMin then quadMin else delta) s - obj.objective [] s)
         then coeff * (2/3)
         else coeff) := by
  cases useQuadMin
  · simp only [Bool.false_eq_true, if_false] at h ⊢
    exact applyTrust_fdiv_of_ne _ _ _ h
  · simp only [if_true] at h ⊢
    exact applyTrust_fdiv_of_ne _ _ _ h

/-- witness for `damping_adjust_ratio_thresholds` on a concrete
objective where the ratio is well defined. -/
theorem damping_adjust_ratio_thresholds_witness :
    (exObjective.quad (if false then [] else [1]) [0] - exObjective.objective [] [0] ≠ 0) ∧
    dampingAdjust exObjective false [1] [] [0] 6
      = (if (exObjective.objective (if false then [] else [1]) [0] - exObjective.objective [] [0]) /
            (exObjective.quad (if false then [] else [1]) [0] - exObjective.objective [] [0]) < 1/4
         then (6 : ℚ) * (3/2)
         else if 3/4 <
            (exObjective.objective (if false then [] else [1]) [0] - exObjective.objective [] [0]) /
            (exObjective.quad (if false then [] else [1]) [0] - exObjective.objective [] [0])
         then 6 * (2/3)
         else 6) :=
  ⟨by norm_num [exObjective],
   damping_adjust_ratio_thresholds exObjective false [1] [] [0] 6 (by norm_num [exObjective])⟩

/-- C6 counterexample: an input on which the reduction-ratio division
is non-finite (positive infinity, from dividing 1 by 0) and
`DampingLearner.Adjust` nevertheless changes the damping coefficient,
multiplying it by 2/3 because `+Inf > 0.75` holds in float64
comparison. -/
theorem damping_infinite_ratio_changes_coeff :
    (dampingTrust stepObjective false [1] [1] [0]).isFinite = false ∧
    dampingAdjust stepObjective false [1] [1] [0] 1 ≠ 1 := by
  have htrust : dampingTrust stepObjective false [1] [1] [0] = .posInf := by
    norm_num [dampingTrust, stepObjective, fdiv]
  constructor
  · rw [htrust]
    rfl
  · unfold dampingAdjust
    rw [htrust]
    show (1 : ℚ) * (2/3) ≠ 1
    norm_num

/-- C6 amended: when the reduction-ratio division yields NaN (both the
improvement and the predicted improvement are zero), the damping
coefficient is left unchanged, because NaN compares false against both
thresholds; an infinite quotient instead adjusts the coefficient in the
direction given by its sign. -/
theorem damping_nan_ratio_keeps_coeff (obj : Objective) (useQuadMin : Bool)
    (delta quadMin : Delta) (s : Batch) (coeff : ℚ)
    (h : dampingTrust obj useQuadMin delta quadMin s = .nan) :
    dampingAdjust obj useQuadMin delta quadMin s coeff = coeff := by
  unfold dampingAdjust applyTrust
  rw [h]
  rfl

/-- witness for `damping_nan_ratio_keeps_coeff`: the all-zero objective
produces the 0/0 trust quotient and coefficient 5 is preserved. -/
theorem damping_nan_ratio_keeps_coeff_witness :
    (dampingTrust zeroObjective false [1] [1] [] = .nan) ∧
    dampingAdjust zeroObjective false [1] [1] [] 5 = 5 :=
  ⟨by norm_num [dampingTrust, zeroObjective, fdiv],
   damping_nan_ratio_keeps_coeff zeroObjective false [1] [1] [] 5
     (by norm_num [dampingTrust, zeroObjective, fdiv])⟩

/-- initIfNeeded_of_some: initialization is a no-op once both the
solution and the residual are present. -/
theorem initIfNeeded_of_some (obj : CGObjective) (n : ℕ) (c : CGState) (s r : Delta)
    (hs : c.solution = some s) (hr : c.residual = some r) :
    initIfNeeded obj n c = c := by
  unfold initIfNeeded
  simp [hs, hr]

/-- updateBacktracking_solution: the backtracking bookkeeping never
touches the solution. -/
theorem updateBacktracking_solution (obj : CGObjective) (btRate : ℚ) (c : CGState) :
    (updateBacktracking obj btRate c).solution = c.solution := by
  unfold updateBacktracking
  split <;> dsimp only <;> split <;> rfl

/-- converging_short: no convergence is reported before two quadratic
values have been recorded. -/
theorem converging_short (cc : ConvergenceCriteria) (start : ℚ) (qv : List ℚ)
    (h : qv.length < 2) : converging cc start qv = false := by
  unfold converging
  rw [if_pos (Or.inl h)]

/-- C3 counterexample: on a state whose curvature along the search
direction is strictly negative (and whose squared residual magnitude is
nonzero), `cgSolver.Step` does not terminate: it returns true and moves
the solution, because the source only tests the curvature for exact
equality with zero. -/
theorem cg_step_negative_curvature_continues :
    dotD negCurvState.projectedResidual
        (negCurvObjective.quadHessian negCurvState.projectedResidual) < 0 ∧
    (cgStep negCurvObjective cc0 2 1 negCurvState).2 = true ∧
    (cgStep negCurvObjective cc0 2 1 negCurvState).1.solution ≠ negCurvState.solution := by
  have hdot : dotD negCurvState.projectedResidual
      (negCurvObjective.quadHessian negCurvState.projectedResidual) = -1 := by
    norm_num [dotD, scaleD, negCurvState, negCurvObjective]
  have hinit : initIfNeeded negCurvObjective 1 negCurvState = negCurvState :=
    initIfNeeded_of_some _ _ _ [0] [1] rfl rfl
  have hne : ¬(dotD negCurvState.projectedResidual
      (negCurvObjective.quadHessian negCurvState.projectedResidual) = 0 ∨
      negCurvState.residualMag2 = 0) := by
    rw [hdot]
    norm_num [negCurvState]
  have hconv : ∀ q : ℚ, converging cc0 negCurvState.startObjective
      (negCurvState.quadValues ++ [q]) = false := by
    intro q
    exact converging_short _ _ _ (by simp [negCurvState])
  have hstep : cgStep negCurvObjective cc0 2 1 negCurvState
      = (updateBacktracking negCurvObjective 2
          { negCurvState with
            justBacktracked := false
            solution := some (addDelta (negCurvState.solution.getD [])
              negCurvState.projectedResidual (negCurvState.residualMag2 /
                dotD negCurvState.projectedResidual
                  (negCurvObjective.quadHessian negCurvState.projectedResidual)))
            quadValues := negCurvState.quadValues ++
              [negCurvObjective.quad (addDelta (negCurvState.solution.getD [])
                negCurvState.projectedResidual (negCurvState.residualMag2 /
                  dotD negCurvState.projectedResidual
                    (negCurvObjective.quadHessian negCurvState.projectedResidual)))]
            residual := some (addDelta (negCurvState.residual.getD [])
              (negCurvObjective.quadHessian negCurvState.projectedResidual)
              (-(negCurvState.residualMag2 /
                dotD negCurvState.projectedResidual
                  (negCurvObjective.quadHessian negCurvState.projectedResidual))))
            residualMag2 := magSquared (addDelta (negCurvState.residual.getD [])
              (negCurvObjective.quadHessian negCurvState.projectedResidual)
              (-(negCurvState.residualMag2 /
                dotD negCurvState.projectedResidual
                  (negCurvObjective.quadHessian negCurvState.projectedResidual))))
            projectedResidual := addDelta
              (scaleD (magSquared (addDelta (negCurvState.residual.getD [])
                  (negCurvObjective.quadHessian negCurvState.projectedResidual)
                  (-(negCurvState.residualMag2 /
                    dotD negCurvState.projectedResidual
                      (negCurvObjective.quadHessian negCurvState.projectedResidual)))) /
                  negCurvState.residualMag2)
                negCurvState.projectedResidual)
              (addDelta (negCurvState.residual.getD [])
                (negCurvObjective.quadHessian negCurvState.projectedResidual)
                (-(negCurvState.residualMag2 /
                  dotD negCurvState.projectedResidual
                    (negCurvObjective.quadHessian negCurvState.projectedResidual)))) 1 },
        true) := by
    unfold cgStep
    rw [hinit, if_neg hne, if_neg (by rw [hconv]; exact Bool.false_ne_true)]
  refine ⟨by rw [hdot]; norm_num, by rw [hstep], ?_⟩
  rw [hstep]
  show (updateBacktracking _ _ _).solution ≠ _
  rw [updateBacktracking_solution]
  show some (addDelta [0] [1] _) ≠ some [0]
  rw [hdot]
  intro hcon
  have h2 : addDelta [0] [1] ((1 : ℚ) / (-1)) = [0] := by
    simpa [negCurvState] using hcon
  have h3 : ((0 : ℚ) + 1 / (-1) * 1) = 0 := by
    have := congrArg (fun l => l.getD 0 0) h2
    simpa [addDelta] using this
  norm_num at h3

/-- C3 amended: a CG `Step` on an initialized state terminates the run
normally (returns false) leaving the whole state untouched exactly when
the curvature along the search direction is exactly zero or the squared
residual magnitude is zero; in every other Step the solution is updated
by `stepSize = residualMag2 / (searchDirection·projHessian)` times the
search direction (negative curvature only makes the step size negative,
it does not terminate the run). -/
theorem cg_step_zero_curvature_terminates (obj : CGObjective) (cc : ConvergenceCriteria)
    (btRate : ℚ) (nParams : ℕ) (c : CGState) (s r : Delta)
    (hs : c.solution = some s) (hr : c.residual = some r) :
    ((dotD c.projectedResidual (obj.quadHessian c.projectedResidual) = 0 ∨
        c.residualMag2 = 0) →
      cgStep obj cc btRate nParams c = (c, false)) ∧
    (¬(dotD c.projectedResidual (obj.quadHessian c.projectedResidual) = 0 ∨
        c.residualMag2 = 0) →
      (cgStep obj cc btRate nParams c).1.solution
        = some (addDelta s c.projectedResidual
            (c.residualMag2 /
              dotD c.projectedResidual (obj.quadHessian c.projectedResidual)))) := by
  have hinit := initIfNeeded_of_some obj nParams c s r hs hr
  constructor
  · intro hd
    unfold cgStep
    rw [hinit, if_pos hd]
  · intro hd
    unfold cgStep
    rw [hinit, if_neg hd]
    dsimp only
    split
    · simp [hs]
    · rw [updateBacktracking_solution]
      simp [hs]

/-- witness for `cg_step_zero_curvature_terminates` on a concrete
initialized state. -/
theorem cg_step_zero_curvature_terminates_witness :
    ((dotD zeroResState.projectedResidual
        (negCurvObjective.quadHessian zeroResState.projectedResidual) = 0 ∨
        zeroResState.residualMag2 = 0) →
      cgStep negCurvObjective cc0 2 1 zeroResState = (zeroResState, false)) ∧
    (¬(dotD zeroResState.projectedResidual
        (negCurvObjective.quadHessian zeroResState.projectedResidual) = 0 ∨
        zeroResState.residualMag2 = 0) →
      (cgStep negCurvObjective cc0 2 1 zeroResState).1.solution
        = some (addDelta [2] zeroResState.projectedResidual
            (zeroResState.residualMag2 /
              dotD zeroResState.projectedResidual
                (negCurvObjective.quadHessian zeroResState.projectedResidual)))) :=
  cg_step_zero_curvature_terminates negCurvObjective cc0 2 1 zeroResState [2] [3] rfl rfl

/-- C4 amended: the convergence test reports convergence only when the
iteration count strictly exceeds `k = int(max(minK, kScale *
iterationCount))` (defaults minK=10, kScale=0.1, epsilon=5e-4), the
most recent quadratic value has dropped to at most the start objective,
and the float64 quotient `(current - old) / current` (with the IEEE
infinities when `current = 0`) compares below `k * epsilon`; and for
every run whose iteration count is at most `k`, the test reports no
convergence. -/
theorem cg_converging_conditions (cc : ConvergenceCriteria) (start : ℚ) (qv : List ℚ) :
    (converging cc start qv = true →
      convergenceK cc qv.length < (qv.length : ℤ) ∧
      qv.getLastD 0 ≤ start ∧
      flt (fdiv ((qv.getLastD 0 - start) -
            (qv.getD (qv.length - 1 - (convergenceK cc qv.length).toNat) 0 - start))
          (qv.getLastD 0 - start))
        (((convergenceK cc qv.length : ℤ) : ℚ) * convergenceEps cc) = true) ∧
    ((qv.length : ℤ) ≤ convergenceK cc qv.length → converging cc start qv = false) := by
  constructor
  · intro h
    simp only [converging] at h
    by_cases h1 : qv.length < 2 ∨ start < qv.getLastD 0
    · rw [if_pos h1] at h
      exact absurd h (by simp)
    · rw [if_neg h1] at h
      by_cases h2 : (qv.length : ℤ) ≤ convergenceK cc qv.length
      · rw [if_pos h2] at h
        exact absurd h (by simp)
      · rw [if_neg h2] at h
        push_neg at h1
        exact ⟨not_le.mp h2, h1.2, h⟩
  · intro hk
    simp only [converging]
    by_cases h1 : qv.length < 2 ∨ start < qv.getLastD 0
    · rw [if_pos h1]
    · rw [if_neg h1, if_pos hk]

/-- converging_eval exposes the final comparison of the convergence
test once both early-out guards are known to fail. -/
theorem converging_eval (cc : ConvergenceCriteria) (start : ℚ) (qv : List ℚ)
    (h1 : ¬(qv.length < 2 ∨ start < qv.getLastD 0))
    (h2 : ¬((qv.length : ℤ) ≤ convergenceK cc qv.length)) :
    converging cc start qv
      = flt (fdiv ((qv.getLastD 0 - start) -
            (qv.getD (qv.length - 1 - (convergenceK cc qv.length).toNat) 0 - start))
          (qv.getLastD 0 - start))
        (((convergenceK cc qv.length : ℤ) : ℚ) * convergenceEps cc) := by
  simp only [converging]
  rw [if_neg h1, if_neg h2]

/-- convergenceK_default_len evaluates `k` for the all-default criteria
at a run length `n` with `n ≤ 100`, where the `kScale` part stays below
the `minK` default. -/
theorem convergenceK_default_len (n : ℕ) (h : n ≤ 100) : convergenceK cc0 n = 10 := by
  have hmax : max (10 : ℚ) (1/10 * (n : ℚ)) = 10 := by
    refine max_eq_left ?_
    have hn : (n : ℚ) ≤ 100 := by exact_mod_cast h
    linarith
  unfold convergenceK
  dsimp only
  rw [if_pos (show cc0.kScale = 0 from rfl), if_pos (show cc0.minK = 0 from rfl)]
  rw [hmax]
  unfold intTrunc
  rw [if_pos (by norm_num : (0 : ℚ) ≤ 10)]
  norm_num

/-- witness for `cg_converging_conditions`: with the default criteria
and start objective 0, the run `qv12` converges, so the necessary
conditions hold for it. -/
theorem cg_converging_conditions_witness :
    convergenceK cc0 qv12.length < (qv12.length : ℤ) ∧
    qv12.getLastD 0 ≤ 0 ∧
    flt (fdiv ((qv12.getLastD 0 - 0) -
          (qv12.getD (qv12.length - 1 - (convergenceK cc0 qv12.length).toNat) 0 - 0))
        (qv12.getLastD 0 - 0))
      (((convergenceK cc0 qv12.length : ℤ) : ℚ) * convergenceEps cc0) = true :=
  (cg_converging_conditions cc0 0 qv12).1 (by
    have hk : convergenceK cc0 qv12.length = 10 :=
      convergenceK_default_len _ (by norm_num [qv12])
    rw [converging_eval cc0 0 qv12 (by norm_num [qv12]) (by rw [hk]; norm_num [qv12]), hk]
    have hlast : qv12.getLastD 0 = -1 := rfl
    have hold : qv12.getD (qv12.length - 1 - (10 : ℤ).toNat) 0 = -1 := rfl
    rw [hlast, hold]
    have e1 : ((-1 : ℚ) - 0 - ((-1) - 0)) = 0 := by norm_num
    have e2 : ((-1 : ℚ) - 0) = -1 := by norm_num
    rw [e1, e2, fdiv, if_pos (show (-1 : ℚ) ≠ 0 by norm_num)]
    show decide ((0 : ℚ) / (-1) < ((10 : ℤ) : ℚ) * convergenceEps cc0) = true
    norm_num [convergenceEps, cc0])

/-- C4 counterexample: with the default criteria the run `qv11`
converges even though its most recent quadratic value has not dropped
strictly below the start objective (it equals it): the improvement
quotient divides by zero and produces negative infinity, which compares
below the threshold. -/
theorem cg_converging_at_equal_value :
    converging cc0 0 qv11 = true ∧ ¬(qv11.getLastD 0 < 0) := by
  have hk : convergenceK cc0 qv11.length = 10 :=
    convergenceK_default_len _ (by norm_num [qv11])
  constructor
  · rw [converging_eval cc0 0 qv11 (by norm_num [qv11]) (by rw [hk]; norm_num [qv11]), hk]
    have hlast : qv11.getLastD 0 = 0 := rfl
    have hold : qv11.getD (qv11.length - 1 - (10 : ℤ).toNat) 0 = 1 := rfl
    rw [hlast, hold]
    have e1 : ((0 : ℚ) - 0 - (1 - 0)) = -1 := by norm_num
    have e2 : ((0 : ℚ) - 0) = 0 := by norm_num
    rw [e1, e2, fdiv, if_neg (show ¬((0 : ℚ) ≠ 0) by norm_num)]
    rw [if_neg (show ¬((0 : ℚ) < -1) by norm_num), if_pos (show (-1 : ℚ) < 0 by norm_num)]
    rfl
  · norm_num [qv11]

/-- zip_map_self pairs the mapped values of a list with the list
itself. -/
theorem zip_map_self (f : Delta → ℚ) (l : List Delta) :
    (l.map f).zip l = l.map (fun d => (f d, d)) := by
  induction l with
  | nil => rfl
  | cons a t ih => simp [ih]

/-- bestStep_foldl: scanning pairs with `bestStep` from an accumulator
that already holds a candidate yields a pair from the scanned prefix
(or the initial candidate) whose value is minimal. -/
theorem bestStep_foldl (l : List (ℚ × Delta)) :
    ∀ (v : ℚ) (d : Delta),
      ∃ p : ℚ × Delta, l.foldl bestStep (v, some d) = (p.1, some p.2) ∧
        (p = (v, d) ∨ p ∈ l) ∧ p.1 ≤ v ∧ ∀ q ∈ l, p.1 ≤ q.1 := by
  induction l with
  | nil =>
    intro v d
    exact ⟨(v, d), rfl, Or.inl rfl, le_refl v, by intro q hq; cases hq⟩
  | cons a t ih =>
    intro v d
    rw [List.foldl_cons]
    by_cases hav : a.1 < v
    · have hstep : bestStep (v, some d) a = (a.1, some a.2) := by
        unfold bestStep
        rw [if_pos (Or.inl hav)]
      rw [hstep]
      obtain ⟨p, hfold, hmem, hle, hall⟩ := ih a.1 a.2
      refine ⟨p, hfold, ?_, le_trans hle (le_of_lt hav), ?_⟩
      · rcases hmem with hmm | hmm
        · exact Or.inr (by rw [hmm]; exact List.mem_cons_self a t)
        · exact Or.inr (List.mem_cons_of_mem a hmm)
      · intro q hq
        rcases List.mem_cons.mp hq with hqa | hqt
        · rw [hqa]; exact hle
        · exact hall q hqt
    · have hstep : bestStep (v, some d) a = (v, some d) := by
        unfold bestStep
        rw [if_neg]
        intro hcon
        rcases hcon with hlt | hnone
        · exact hav hlt
        · exact Option.some_ne_none d hnone
      rw [hstep]
      obtain ⟨p, hfold, hmem, hle, hall⟩ := ih v d
      refine ⟨p, hfold, ?_, hle, ?_⟩
      · rcases hmem with hmm | hmm
        · exact Or.inl hmm
        · exact Or.inr (List.mem_cons_of_mem a hmm)
      · intro q hq
        rcases List.mem_cons.mp hq with hqa | hqt
        · rw [hqa]; exact le_trans hle (not_lt.mp hav)
        · exact hall q hqt

/-- C5 amended: for every solver state whose stored backtrack values
record the true objective of the corresponding snapshots (and whose
current solution, right after a backtrack, is the last snapshot),
`Best()` returns a member of {current solution} ∪ {snapshots} with the
lowest true objective value; when the lowest value is attained by both
the current solution and a snapshot, the snapshot (not the current
solution) is returned, because the comparison against the best snapshot
value is strict. -/
theorem cg_best_returns_lowest (objectiveOf : Delta → ℚ) (c : CGState) (s : Delta)
    (hs : c.solution = some s)
    (hv : c.backtrackValues = c.backtrackDeltas.map objectiveOf)
    (hjb : c.justBacktracked = true → s ∈ c.backtrackDeltas) :
    ∃ d, cgBest objectiveOf c = some d ∧
      (d = s ∨ d ∈ c.backtrackDeltas) ∧
      (∀ x ∈ s :: c.backtrackDeltas, objectiveOf d ≤ objectiveOf x) ∧
      (c.justBacktracked = false → c.backtrackDeltas ≠ [] →
        (∃ x ∈ c.backtrackDeltas, objectiveOf x ≤ objectiveOf s) →
        d ∈ c.backtrackDeltas) := by
  unfold cgBest
  rw [hv, zip_map_self, hs]
  cases hbd : c.backtrackDeltas with
  | nil =>
    cases hjbv : c.justBacktracked with
    | false =>
      refine ⟨s, ?_, Or.inl rfl, ?_, ?_⟩
      · simp
      · intro x hx
        rcases List.mem_cons.mp hx with hxs | hxn
        · rw [hxs]
        · cases hxn
      · intro _ hne _
        exact absurd rfl hne
    | true =>
      rw [hbd] at hjb
      exact absurd (hjb hjbv) (by simp)
  | cons d0 t0 =>
    have hfirst : bestStep (0, none) (objectiveOf d0, d0) = (objectiveOf d0, some d0) := by
      unfold bestStep
      rw [if_pos (Or.inr rfl)]
    obtain ⟨p, hfold, hmem, hle, hall⟩ :=
      bestStep_foldl (t0.map fun d => (objectiveOf d, d)) (objectiveOf d0) d0
    have hscan : ((d0 :: t0).map fun d => (objectiveOf d, d)).foldl bestStep (0, none)
        = (p.1, some p.2) := by
      rw [List.map_cons, List.foldl_cons, hfirst, hfold]
    have hp2 : p.2 ∈ d0 :: t0 ∧ p.1 = objectiveOf p.2 := by
      rcases hmem with hmm | hmm
      · rw [hmm]
        exact ⟨List.mem_cons_self d0 t0, rfl⟩
      · rcases List.mem_map.mp hmm with ⟨dd, hdd, hpd⟩
        rw [← hpd]
        exact ⟨List.mem_cons_of_mem d0 hdd, rfl⟩
    have hmin : ∀ x ∈ d0 :: t0, p.1 ≤ objectiveOf x := by
      intro x hx
      rcases List.mem_cons.mp hx with hxa | hxt
      · rw [hxa]; exact hle
      · exact hall (objectiveOf x, x) (List.mem_map.mpr ⟨x, hxt, rfl⟩)
    rw [hscan]
    cases hjbv : c.justBacktracked with
    | true =>
      rw [hbd] at hjb
      have hsmem := hjb hjbv
      refine ⟨p.2, by simp, Or.inr hp2.1, ?_, ?_⟩
      · intro x hx
        rcases List.mem_cons.mp hx with hxs | hxm
        · rw [hxs, ← hp2.2]
          exact hmin s hsmem
        · rw [← hp2.2]
          exact hmin x hxm
      · intro hcon
        exact absurd hcon (by simp)
    | false =>
      dsimp only
      by_cases hcmp : objectiveOf ((some s).getD []) < p.1
      · rw [if_pos rfl, if_pos (Or.inl hcmp)]
        refine ⟨s, rfl, Or.inl rfl, ?_, ?_⟩
        · intro x hx
          rcases List.mem_cons.mp hx with hxs | hxm
          · rw [hxs]
          · have := hmin x hxm
            have hss : objectiveOf s < p.1 := hcmp
            exact le_of_lt (lt_of_lt_of_le hss this)
        · intro _ _ hex
          rcases hex with ⟨x, hx, hxle⟩
          have := hmin x hx
          have hss : objectiveOf s < p.1 := hcmp
          exact absurd (lt_of_lt_of_le hss (le_trans this hxle)) (lt_irrefl _)
      · rw [if_pos rfl, if_neg]
        · refine ⟨p.2, rfl, Or.inr hp2.1, ?_, ?_⟩
          · intro x hx
            rcases List.mem_cons.mp hx with hxs | hxm
            · rw [hxs, ← hp2.2]
              exact not_lt.mp hcmp
            · rw [← hp2.2]
              exact hmin x hxm
          · intro _ _ _
            exact hp2.1
        · intro hcon
          rcases hcon with hlt | hnone
          · exact hcmp hlt
          · exact Option.some_ne_none p.2 hnone

/-- C5 counterexample: when the current solution and a backtracked
snapshot attain the same (lowest) true objective value, `Best()`
returns the snapshot, not the current solution, because the comparison
`btValue < bestVal` in the source is strict. -/
theorem cg_best_tie_returns_snapshot :
    cgBest constFive tieState = some [2] ∧
    tieState.solution = some [3] ∧
    constFive [3] = constFive [2] ∧
    ¬([2] : Delta) = [3] := by
  have h1 : bestStep (0, none) (5, [2]) = (5, some [2]) := by
    unfold bestStep
    rw [if_pos (Or.inr rfl)]
  refine ⟨?_, rfl, rfl, by norm_num⟩
  unfold cgBest
  dsimp only [tieState]
  rw [show ((([5] : List ℚ).zip [[2]]) : List (ℚ × Delta)) = [(5, [2])] from rfl]
  rw [List.foldl_cons, h1, List.foldl_nil]
  dsimp only
  rw [if_pos rfl, if_neg]
  intro hcon
  rcases hcon with hlt | hnone
  · exact lt_irrefl 5 hlt
  · exact Option.some_ne_none _ hnone

/-- witness for `cg_best_returns_lowest` on the concrete state
`tieState` with the constant objective. -/
theorem cg_best_returns_lowest_witness :
    ∃ d, cgBest constFive tieState = some d ∧
      (d = [3] ∨ d ∈ tieState.backtrackDeltas) ∧
      (∀ x ∈ ([3] : Delta) :: tieState.backtrackDeltas, constFive d ≤ constFive x) ∧
      (tieState.justBacktracked = false → tieState.backtrackDeltas ≠ [] →
        (∃ x ∈ tieState.backtrackDeltas, constFive x ≤ constFive [3]) →
        d ∈ tieState.backtrackDeltas) :=
  cg_best_returns_lowest constFive tieState [3] rfl rfl
    (by intro hcon; simp [tieState] at hcon)

/-- subBatchChunks_spec: chunking with size `k + 1` produces
`⌈n/(k+1)⌉` chunks of size at most `k + 1` whose concatenation is the
original list. -/
theorem subBatchChunks_spec {α : Type} (k : ℕ) :
    ∀ (n : ℕ) (s : List α), s.length ≤ n →
      (subBatchChunks k s).length = (s.length + k) / (k + 1) ∧
      (∀ b ∈ subBatchChunks k s, b.length ≤ k + 1) ∧
      (subBatchChunks k s).flatten = s := by
  intro n
  induction n with
  | zero =>
    intro s hs
    have : s = [] := List.eq_nil_of_length_eq_zero (Nat.le_zero.mp hs)
    subst this
    refine ⟨?_, ?_, by simp [subBatchChunks]⟩
    · simp [subBatchChunks, Nat.div_eq_of_lt (Nat.lt_succ_self k)]
    · intro b hb
      simp [subBatchChunks] at hb
  | succ n ih =>
    intro s hs
    cases s with
    | nil =>
      refine ⟨?_, ?_, by simp [subBatchChunks]⟩
      · simp [subBatchChunks, Nat.div_eq_of_lt (Nat.lt_succ_self k)]
      · intro b hb
        simp [subBatchChunks] at hb
    | cons x xs =>
      have hdrop : (xs.drop k).length ≤ n := by
        simp only [List.length_drop]
        have : xs.length ≤ n := by
          have := hs
          simp only [List.length_cons] at this
          omega
        omega
      obtain ⟨ihlen, ihsize, ihjoin⟩ := ih (xs.drop k) hdrop
      have heq : subBatchChunks k (x :: xs) = (x :: xs.take k) :: subBatchChunks k (xs.drop k) := by
        rw [subBatchChunks]
      refine ⟨?_, ?_, ?_⟩
      · rw [heq]
        simp only [List.length_cons, ihlen, List.length_drop]
        rcases le_or_lt k xs.length with hk | hk
        · have h1 : xs.length - k + k = xs.length := Nat.sub_add_cancel hk
          rw [h1]
          have h2 : xs.length + 1 + k = xs.length + (k + 1) := by omega
          rw [h2, Nat.add_div_right _ (Nat.succ_pos k)]
        · have h1 : xs.length - k = 0 := Nat.sub_eq_zero_of_le (le_of_lt hk)
          rw [h1]
          have h2 : (0 + k) / (k + 1) = 0 := by
            apply Nat.div_eq_of_lt
            omega
          rw [h2]
          have h3 : (xs.length + 1 + k) / (k + 1) = 1 := by
            have e : xs.length + 1 + k = xs.length + (k + 1) := by omega
            rw [e, Nat.add_div_right _ (Nat.succ_pos k),
              Nat.div_eq_of_lt (by omega : xs.length < k + 1)]
          rw [h3]
      · rw [heq]
        intro b hb
        rcases List.mem_cons.mp hb with hbh | hbt
        · rw [hbh]
          simp only [List.length_cons]
          have := List.length_take_le k xs
          omega
        · exact ihsize b hbt
      · rw [heq, List.flatten_cons, ihjoin, List.cons_append, List.take_append_drop]

/-- C7: for every sample list and configured `MaxSubBatch` (default 15
when unset), the sub-batch channel delivers exactly `⌈n/m⌉` contiguous
sub-batches, each of at most `m` samples, in original order: their
concatenation is the original batch. `⌈n/m⌉` is written as
`(n + m - 1) / m` in natural division. -/
theorem concurrent_sub_batches_partition {α : Type} (maxSubBatch : ℕ) (s : List α) :
    (subBatchChan maxSubBatch s).length
        = (s.length + effSubSize maxSubBatch - 1) / effSubSize maxSubBatch ∧
    (∀ b ∈ subBatchChan maxSubBatch s, b.length ≤ effSubSize maxSubBatch) ∧
    (subBatchChan maxSubBatch s).flatten = s := by
  have hpos : 0 < effSubSize maxSubBatch := by
    unfold effSubSize
    split <;> omega
  have hk : effSubSize maxSubBatch - 1 + 1 = effSubSize maxSubBatch := Nat.succ_pred_eq_of_pos hpos
  obtain ⟨hlen, hsize, hjoin⟩ :=
    subBatchChunks_spec (effSubSize maxSubBatch - 1) s.length s (le_refl _)
  refine ⟨?_, ?_, hjoin⟩
  · unfold subBatchChan
    rw [hlen]
    have hnum : s.length + (effSubSize maxSubBatch - 1)
        = s.length + effSubSize maxSubBatch - 1 := by omega
    have hden : effSubSize maxSubBatch - 1 + 1 = effSubSize maxSubBatch := by omega
    rw [hnum, hden]
  · intro b hb
    have := hsize b hb
    omega

/-- foldl_update_not_mem: a fold that only writes the keys of its list
leaves every other index unchanged. -/
theorem foldl_update_not_mem (g : Params → ℕ × List ℚ → List ℚ) :
    ∀ (l : List (ℕ × List ℚ)) (ps : Params) (v : ℕ), v ∉ l.map Prod.fst →
      (l.foldl (fun a p => Function.update a p.1 (g a p)) ps) v = ps v := by
  intro l
  induction l with
  | nil => intro ps v _; rfl
  | cons a t ih =>
    intro ps v hv
    rw [List.map_cons] at hv
    have hva : v ≠ a.1 := fun hcon => hv (by rw [hcon]; exact List.mem_cons_self _ _)
    have hvt : v ∉ t.map Prod.fst := fun hcon => hv (List.mem_cons_of_mem _ hcon)
    rw [List.foldl_cons, ih _ v hvt]
    exact Function.update_noteq hva _ ps

/-- restore_mem: restoring backups that all record `params` values
yields `params` at every backed-up key. -/
theorem restore_mem (params : Params) :
    ∀ (l : List (ℕ × List ℚ)) (ps : Params) (v : ℕ),
      (∀ p ∈ l, p.2 = params p.1) → v ∈ l.map Prod.fst →
      restoreParams ps l v = params v := by
  intro l
  induction l with
  | nil =>
    intro ps v _ hv
    cases hv
  | cons a t ih =>
    intro ps v hval hv
    rw [List.map_cons] at hv
    unfold restoreParams
    rw [List.foldl_cons]
    by_cases hvt : v ∈ t.map Prod.fst
    · exact ih _ v (fun p hp => hval p (List.mem_cons_of_mem a hp)) hvt
    · have hva : v = a.1 := by
        rcases List.mem_cons.mp hv with h | h
        · exact h
        · exact absurd h hvt
      have hfix := foldl_update_not_mem (fun _ p => p.2) t
          (Function.update ps a.1 a.2) v hvt
      show (t.foldl (fun a p => Function.update a p.1 p.2) (Function.update ps a.1 a.2)) v
          = params v
      rw [hfix, hva, Function.update_same]
      exact hval a (List.mem_cons_self a t)

/-- patch_mem: when the delta keys are distinct, patching sets each
named vector to the entrywise sum of its prior value and the delta
entry. -/
theorem patch_mem (params : Params) :
    ∀ (l : List (ℕ × List ℚ)), (l.map Prod.fst).Nodup →
      ∀ (v : ℕ) (vec : List ℚ), (v, vec) ∈ l →
      patchParams params l v = List.zipWith (· + ·) (params v) vec := by
  intro l
  induction l generalizing params with
  | nil =>
    intro _ v vec hv
    cases hv
  | cons a t ih =>
    intro hnd v vec hv
    rw [List.map_cons, List.nodup_cons] at hnd
    unfold patchParams
    rw [List.foldl_cons]
    rcases List.mem_cons.mp hv with hva | hvt
    · have hv1 : v = a.1 := by rw [← hva]
      have hvec : vec = a.2 := by rw [← hva]
      have hnotin : v ∉ t.map Prod.fst := by
        rw [hv1]
        exact hnd.1
      have := foldl_update_not_mem
          (fun ps p => List.zipWith (· + ·) (ps p.1) p.2) t
          (Function.update params a.1 (List.zipWith (· + ·) (params a.1) a.2)) v hnotin
      rw [this, hv1, hvec, Function.update_same]
    · have hva : v ≠ a.1 := by
        intro hcon
        apply hnd.1
        rw [← hcon]
        exact List.mem_map.mpr ⟨(v, vec), hvt, rfl⟩
      have := ih (Function.update params a.1 (List.zipWith (· + ·) (params a.1) a.2))
          hnd.2 v vec hvt
      show patchParams
          (Function.update params a.1 (List.zipWith (· + ·) (params a.1) a.2)) t v = _
      rw [this, Function.update_noteq hva]

/-- C8: `ConcurrentObjective.Objective(d, s)` evaluates the wrapped
at-zero objective over the sub-batches with each delta-named parameter
vector equal to its prior value plus the delta entry (all other
parameters untouched), and on return every parameter vector equals its
value before the call. -/
theorem concurrent_objective_patch_restore {α : Type} (atZero : Params → List α → ℚ)
    (maxSubBatch : ℕ) (params : Params) (delta : List (ℕ × List ℚ)) (s : List α)
    (hkeys : (delta.map Prod.fst).Nodup) :
    (concurrentObjectiveAt atZero maxSubBatch params delta s).1
        = sumValues (fun subSet => atZero (patchParams params delta) subSet) maxSubBatch s ∧
    (∀ v vec, (v, vec) ∈ delta →
        patchParams params delta v = List.zipWith (· + ·) (params v) vec) ∧
    (∀ v, v ∉ delta.map Prod.fst → patchParams params delta v = params v) ∧
    (∀ v, (concurrentObjectiveAt atZero maxSubBatch params delta s).2 v = params v) := by
  refine ⟨rfl, ?_, ?_, ?_⟩
  · intro v vec hv
    exact patch_mem params delta hkeys v vec hv
  · intro v hv
    exact foldl_update_not_mem _ delta params v hv
  · intro v
    show restoreParams (patchParams params delta) (delta.map fun p => (p.1, params p.1)) v
        = params v
    by_cases hv : v ∈ delta.map Prod.fst
    · have hkeys2 : v ∈ (delta.map fun p => (p.1, params p.1)).map Prod.fst := by
        rw [List.map_map]
        exact hv
      exact restore_mem params _ _ v
        (by
          intro p hp
          rcases List.mem_map.mp hp with ⟨q, _, hq⟩
          rw [← hq]) hkeys2
    · have hkeys2 : v ∉ (delta.map fun p => (p.1, params p.1)).map Prod.fst := by
        rw [List.map_map]
        exact hv
      unfold restoreParams
      rw [foldl_update_not_mem (fun _ p => p.2) _ _ v hkeys2]
      exact foldl_update_not_mem _ delta params v hv

/-- witness for `concurrent_objective_patch_restore` at a concrete
two-entry delta with distinct keys. -/
theorem concurrent_objective_patch_restore_witness :
    ((([(0, [1]), (1, [2])] : List (ℕ × List ℚ)).map Prod.fst).Nodup) ∧
    ((concurrentObjectiveAt exAtZero 2 exParams [(0, [1]), (1, [2])] [7]).1
        = sumValues (fun subSet => exAtZero (patchParams exParams [(0, [1]), (1, [2])]) subSet)
            2 [7] ∧
     (∀ v vec, (v, vec) ∈ ([(0, [1]), (1, [2])] : List (ℕ × List ℚ)) →
        patchParams exParams [(0, [1]), (1, [2])] v = List.zipWith (· + ·) (exParams v) vec) ∧
     (∀ v, v ∉ ([(0, [1]), (1, [2])] : List (ℕ × List ℚ)).map Prod.fst →
        patchParams exParams [(0, [1]), (1, [2])] v = exParams v) ∧
     (∀ v, (concurrentObjectiveAt exAtZero 2 exParams [(0, [1]), (1, [2])] [7]).2 v
        = exParams v)) :=
  ⟨by decide,
   concurrent_objective_patch_restore exAtZero 2 exParams [(0, [1]), (1, [2])] [7] (by decide)⟩

/-- cacheWF_step: both pool operations preserve the length
invariant. -/
theorem cacheWF_step (c : VecCacheState) (op : PoolOp) (hc : cacheWF c) :
    cacheWF (match op with
      | .alloc n => (vecAlloc c n).2
      | .release v => vecRelease c v) := by
  cases op with
  | alloc n =>
    intro s v hv
    dsimp only at hv
    unfold vecAlloc at hv
    split at hv
    · exact hc s v hv
    · rename_i x xs hstack
      dsimp only at hv
      by_cases hs : s = n
      · subst hs
        rw [Function.update_same] at hv
        have hmem : v ∈ x :: xs := List.dropLast_subset _ hv
        rw [← hstack] at hmem
        exact hc s v hmem
      · rw [Function.update_noteq hs] at hv
        exact hc s v hv
  | release w =>
    intro s v hv
    dsimp only at hv
    unfold vecRelease at hv
    by_cases hs : s = w.length
    · subst hs
      rw [Function.update_same] at hv
      rcases List.mem_append.mp hv with h | h
      · exact hc _ v h
      · rw [List.mem_singleton.mp h]
    · rw [Function.update_noteq hs] at hv
      exact hc s v hv

/-- runPool_wf: any operation sequence leaves the pool well formed. -/
theorem runPool_wf (ops : List PoolOp) : cacheWF (runPool ops) := by
  suffices h : ∀ (l : List PoolOp) (c : VecCacheState), cacheWF c →
      cacheWF (l.foldl
        (fun c op =>
          match op with
          | .alloc n => (vecAlloc c n).2
          | .release v => vecRelease c v) c) by
    exact h ops (fun _ => []) (by intro s v hv; cases hv)
  intro l
  induction l with
  | nil => intro c hc; exact hc
  | cons op t ih =>
    intro c hc
    rw [List.foldl_cons]
    exact ih _ (cacheWF_step c op hc)

/-- map_zero_replicate: overwriting every entry with zero gives the
zero vector of the same length. -/
theorem map_zero_replicate (l : List ℚ) :
    l.map (fun _ => (0 : ℚ)) = List.replicate l.length 0 := by
  induction l with
  | nil => rfl
  | cons x xs ih => simp [ih, List.replicate_succ]

/-- getLastD_mem: the last element of a nonempty list is a member. -/
theorem getLastD_mem (x : List ℚ) (xs : List (List ℚ)) :
    (x :: xs).getLastD [] ∈ x :: xs := by
  induction xs generalizing x with
  | nil => simp [List.getLastD]
  | cons y ys ih =>
    rw [List.getLastD_cons]
    exact List.mem_cons_of_mem x (ih y)

/-- C9: after any sequence of pool operations, `vecCache.Alloc(size)`
returns a zero-filled vector of length exactly `size`, regardless of
the contents a vector held when it was previously released. -/
theorem vec_pool_alloc_zeroed (ops : List PoolOp) (size : ℕ) :
    (vecAlloc (runPool ops) size).1 = List.replicate size 0 ∧
    (vecAlloc (runPool ops) size).1.length = size := by
  have hwf := runPool_wf ops
  have hmain : (vecAlloc (runPool ops) size).1 = List.replicate size 0 := by
    unfold vecAlloc
    split
    · rfl
    · rename_i x xs hstack
      have hmem : (x :: xs).getLastD [] ∈ x :: xs := getLastD_mem x xs
      have hlen : ((x :: xs).getLastD []).length = size := by
        apply hwf size
        rw [hstack]
        exact hmem
      rw [map_zero_replicate, hlen]
  exact ⟨hmain, by rw [hmain]; exact List.length_replicate size 0⟩

/-- C10: on the empty sample set the concurrent objective produces no
sub-batches, so the summed `Quad` and true `Objective` values are
exactly zero and `QuadGrad` adds nothing to its accumulator (each
worker contributes only its freshly zeroed delta). -/
theorem concurrent_empty_batch {α : Type} (wrappedQuad : Delta → List α → ℚ)
    (g : List α → Delta) (atZero : Params → List α → ℚ) (params : Params)
    (delta : List (ℕ × List ℚ)) (deltaQ : Delta) (maxSubBatch nParams : ℕ) (sumOut : Delta)
    (hlen : sumOut.length = nParams) :
    subBatchChan maxSubBatch ([] : List α) = [] ∧
    concurrentQuad wrappedQuad maxSubBatch deltaQ ([] : List α) = 0 ∧
    (concurrentObjectiveAt atZero maxSubBatch params delta ([] : List α)).1 = 0 ∧
    concurrentQuadGrad g maxSubBatch nParams ([] : List α) sumOut = sumOut := by
  have hchan : subBatchChan maxSubBatch ([] : List α) = [] := by
    unfold subBatchChan
    rw [subBatchChunks]
  refine ⟨hchan, ?_, ?_, ?_⟩
  · unfold concurrentQuad sumValues
    rw [hchan]
    rfl
  · show sumValues _ maxSubBatch ([] : List α) = 0
    unfold sumValues
    rw [hchan]
    rfl
  · unfold concurrentQuadGrad
    rw [hchan, List.foldl_nil]
    unfold addDelta
    have : ∀ (l : List ℚ) (n : ℕ), l.length = n →
        List.zipWith (fun x y => x + 1 * y) l (List.replicate n 0) = l := by
      intro l
      induction l with
      | nil => intro n _; simp
      | cons x xs ih =>
        intro n hn
        cases n with
        | zero => cases hn
        | succ m =>
          rw [List.replicate_succ, List.zipWith_cons_cons, ih m (by simpa using hn)]
          norm_num
    exact this sumOut nParams hlen

/-- witness for `concurrent_empty_batch` at concrete inputs. -/
theorem concurrent_empty_batch_witness :
    subBatchChan 2 ([] : List ℕ) = [] ∧
    concurrentQuad (fun d s => d.sum + (s.length : ℚ)) 2 [5] ([] : List ℕ) = 0 ∧
    (concurrentObjectiveAt exAtZero 2 exParams [(0, [1])] ([] : List ℕ)).1 = 0 ∧
    concurrentQuadGrad (fun _ => [4, 4]) 2 2 ([] : List ℕ) [9, 9] = [9, 9] :=
  concurrent_empty_batch (fun d s => d.sum + (s.length : ℚ)) (fun _ => [4, 4]) exAtZero
    exParams [(0, [1])] [5] 2 2 [9, 9] (by decide)

/-- witness for `concurrent_sub_batches_partition` at a five-sample
batch with sub-batch size 2. -/
theorem concurrent_sub_batches_partition_witness :
    (subBatchChan 2 ([1, 2, 3, 4, 5] : List ℕ)).length
        = (([1, 2, 3, 4, 5] : List ℕ).length + effSubSize 2 - 1) / effSubSize 2 ∧
    (∀ b ∈ subBatchChan 2 ([1, 2, 3, 4, 5] : List ℕ), b.length ≤ effSubSize 2) ∧
    (subBatchChan 2 ([1, 2, 3, 4, 5] : List ℕ)).flatten = [1, 2, 3, 4, 5] :=
  concurrent_sub_batches_partition 2 [1, 2, 3, 4, 5]

/-- witness for `vec_pool_alloc_zeroed`: a vector with nonzero contents
is released and the next allocation at its length is zero-filled. -/
theorem vec_pool_alloc_zeroed_witness :
    (vecAlloc (runPool [PoolOp.release [7, 8]]) 2).1 = List.replicate 2 0 ∧
    (vecAlloc (runPool [PoolOp.release [7, 8]]) 2).1.length = 2 :=
  vec_pool_alloc_zeroed [PoolOp.release [7, 8]] 2

end Hessfree
